import Mathlib

/-!
# Verification of `spring_yaml_sanity.py`

A shallow embedding of the core of the Spring YAML duplicate-override
detector, together with proofs of the specified properties.

Embedding conventions:
* Python scalars (`str`, `int`, `float`, `bool`, `None`) become the
  `Scalar` inductive.  Python `float` values are modelled by the exact
  rational they denote (the concrete values appearing here, such as
  `8080.0`, are exactly representable IEEE doubles, for which Python
  equality coincides with equality of the denoted rationals; NaN never
  arises in the specified scenarios).
* Parsed YAML trees become the `Node` inductive.  Python `dict`s are
  insertion-ordered association lists with string keys (YAML mappings per
  the data model have string keys), `list`s are Lean lists, and any other
  runtime value (a set, a tuple, ...) is the opaque `Node.other`.
* File I/O is represented by passing the parsed document stream (for
  `load_yaml_merged`) resp. an `Except` capturing a load success/failure
  (for `compare_and_report`) as an argument; printed output is modelled
  as a list of structured `Event`s.
-/

/-- Python scalar values, cf. `Scalar = Union[str, int, float, bool, None]`
in the source. -/
inductive Scalar where
  | str (s : String)
  | int (n : Int)
  | float (q : ℚ)
  | bool (b : Bool)
  | null
deriving DecidableEq, Repr

/-- The numeric value of a scalar, when it has one.  Python treats `bool`
as a numeric type with `True == 1` and `False == 0`, and compares `int`
and `float` by numeric value. -/
def Scalar.numVal : Scalar → Option ℚ
  | .int n => some (n : ℚ)
  | .float q => some q
  | .bool b => some (if b then 1 else 0)
  | _ => none

/-- Python `==` on scalars: numbers (`int`/`float`/`bool`) compare by
numeric value, strings by content, `None` only equals `None`, and any
cross-category comparison (string vs. number, `None` vs. anything else)
is `False`. -/
def pyEq (a b : Scalar) : Bool :=
  match a, b with
  | .str s, .str t => decide (s = t)
  | .null, .null => true
  | a, b =>
    match a.numVal, b.numVal with
    | some x, some y => decide (x = y)
    | _, _ => false

/-- A parsed YAML document tree: mappings (insertion-ordered, string
keys), sequences, scalars, or some other non-scalar leaf (set, tuple,
...) that `flatten` silently skips. -/
inductive Node where
  | scalar (s : Scalar)
  | map (entries : List (String × Node))
  | seq (items : List Node)
  | other
deriving Repr

/-- `is_scalar(v)` from the source: `isinstance(v, (str, int, float, bool))
or v is None`. -/
def is_scalar : Node → Bool
  | .scalar _ => true
  | _ => false

/-- Python `d[k]`-with-`k in d` lookup on an association list. -/
def dget {α : Type} : List (String × α) → String → Option α
  | [], _ => none
  | (k, v) :: rest, q => if k = q then some v else dget rest q

/-- Python `d[k] = v` on an insertion-ordered dict: if the key is present
its value is replaced in place, otherwise the pair is appended. -/
def dictInsert {α : Type} : List (String × α) → String → α → List (String × α)
  | [], k, v => [(k, v)]
  | (k', v') :: rest, k, v =>
    if k' = k then (k, v) :: rest else (k', v') :: dictInsert rest k v

/-- Build a Python dict by inserting a list of pairs in order (later
entries with an already-present key overwrite the value in place). -/
def pyDict {α : Type} (l : List (String × α)) : List (String × α) :=
  l.foldl (fun d p => dictInsert d p.1 p.2) []

mutual
/-- `deep_merge(a, b)` from the source: start from a copy of `a`; for
every key `k` of `b` in order, if `k` is present in the accumulated dict
(`Option.elim` on the lookup) combine the present value with `b[k]` via
`mergeVal`, otherwise set `k` to `b[k]`. -/
def deep_merge : List (String × Node) → List (String × Node) → List (String × Node)
  | out, [] => out
  | out, (k, v) :: rest =>
    deep_merge (dictInsert out k ((dget out k).elim v (fun old => mergeVal old v))) rest
termination_by _ b => sizeOf b
decreasing_by
  · simp_arith
  · simp_arith

/-- The body of `deep_merge`'s conditional: when the present value and
the incoming value are both mappings, merge recursively
(`isinstance(out[k], dict) and isinstance(v, dict)`); otherwise the
incoming value replaces the present one wholesale. -/
def mergeVal : Node → Node → Node
  | Node.map m, Node.map vm => Node.map (deep_merge m vm)
  | _, v => v
termination_by _ v₂ => sizeOf v₂
decreasing_by
  simp_arith
end

/-- One iteration of the document loop in `load_yaml_merged`: a `None`
document is skipped (`if d is None: continue`), a non-mapping root is
wrapped as `{"_": d}`, and the result is deep-merged into the
accumulator. -/
def mergeDoc (merged : List (String × Node)) (d : Node) : List (String × Node) :=
  match d with
  | .scalar .null => merged
  | .map entries => deep_merge merged entries
  | d' => deep_merge merged [("_", d')]

/-- `load_yaml_merged` from the source, with the parsed document stream
passed in place of the file: the documents are folded left-to-right
through `mergeDoc` starting from the empty dict. -/
def load_yaml_merged (docs : List Node) : List (String × Node) :=
  docs.foldl mergeDoc []

/-- The decimal digits of a natural number, most significant first;
the rendering Python's `str(i)` produces for a sequence index. -/
def natDigits (n : Nat) : List Char :=
  if n < 10 then [Nat.digitChar n]
  else natDigits (n / 10) ++ [Nat.digitChar (n % 10)]
termination_by n
decreasing_by
  exact Nat.div_lt_self (by omega) (by omega)

/-- Decimal rendering of a natural number (Python `str(i)`). -/
def natRepr (n : Nat) : String := ⟨natDigits n⟩

/-- The child path for a mapping key: `f"{pfx}.{k}" if pfx else str(k)`. -/
def mapKey (pfx k : String) : String :=
  if pfx = "" then k else pfx ++ "." ++ k

/-- The child path for a sequence index: `f"{pfx}[{i}]" if pfx else f"[{i}]"`. -/
def seqKey (pfx : String) (i : Nat) : String :=
  if pfx = "" then "[" ++ natRepr i ++ "]" else pfx ++ "[" ++ natRepr i ++ "]"

mutual
/-- The inner `_walk` of `flatten`: emits one `(path, value)` pair per
scalar leaf, in traversal order (the pairs are subsequently inserted
into the `flat` dict).  Mappings recurse with `mapKey`, sequences with
`seqKey` over `enumerate`, and any other node kind is skipped. -/
def walk : Node → String → List (String × Scalar)
  | .scalar s, pfx => [(pfx, s)]
  | .map entries, pfx => walkMap entries pfx
  | .seq items, pfx => walkSeq items pfx 0
  | .other, _ => []

/-- The mapping loop of `_walk`: `for k, v in node.items()`. -/
def walkMap : List (String × Node) → String → List (String × Scalar)
  | [], _ => []
  | (k, v) :: rest, pfx => walk v (mapKey pfx k) ++ walkMap rest pfx

/-- The sequence loop of `_walk`: `for i, v in enumerate(node)`, with `i`
the index of the first remaining item. -/
def walkSeq : List Node → String → Nat → List (String × Scalar)
  | [], _, _ => []
  | v :: rest, pfx, i => walk v (seqKey pfx i) ++ walkSeq rest pfx (i + 1)
end

/-- `flatten(data, prefix="")` from the source: run `_walk`, collect the
emitted pairs into a dict (later emissions for an already-seen path
overwrite the value in place), then drop the empty-path entry that a
scalar root produces. -/
def flatten (data : Node) (pfx : String := "") : List (String × Scalar) :=
  (pyDict (walk data pfx)).filter (fun p => p.1 != "")

/-- The comparator core of `compare_and_report` (source lines 130-135):
keep every profile entry whose path is present in the base flattening
with a `==`-equal value, then sort by path. -/
def findDuplicates (base_flat prof_flat : List (String × Scalar)) :
    List (String × Scalar) :=
  let duplicates := prof_flat.filter
    (fun kv =>
      match dget base_flat kv.1 with
      | some bv => pyEq bv kv.2
      | none => false)
  duplicates.mergeSort (fun x y => decide (x.1 ≤ y.1))

/-- One printed line of `compare_and_report`, kept structured: the two
`ERROR: Failed to load ...` diagnostics and the per-duplicate report
line. -/
inductive Event where
  | loadBaseError (path msg : String)
  | loadProfileError (path msg : String)
  | duplicate (profilePath key : String) (v : Scalar)
deriving DecidableEq, Repr

/-- `compare_and_report(base_path, profile_path)` with the two load
outcomes passed as `Except` values (the source wraps each
`load_yaml_merged` call in `try`/`except`).  Returns the printed events
and the returned duplicate count. -/
def compare_and_report (base_path profile_path : String)
    (baseLoad profLoad : Except String (List (String × Node))) :
    List Event × Nat :=
  match baseLoad with
  | .error e => ([.loadBaseError base_path e], 0)
  | .ok base_data =>
    match profLoad with
    | .error e => ([.loadProfileError profile_path e], 0)
    | .ok prof_data =>
      let base_flat := flatten (Node.map base_data)
      let prof_flat := flatten (Node.map prof_data)
      let duplicates := findDuplicates base_flat prof_flat
      (duplicates.map (fun kv => .duplicate profile_path kv.1 kv.2),
        duplicates.length)

/-- The profile loop of `process_folder`: `total += compare_and_report(...)`
over the discovered profile files (each given by its path and load
outcome). -/
def profile_loop (base_path : String)
    (baseLoad : Except String (List (String × Node)))
    (profs : List (String × Except String (List (String × Node)))) : Nat :=
  profs.foldl
    (fun total p => total + (compare_and_report base_path p.1 baseLoad p.2).2) 0

/-- A mapping key is *clean* when it is nonempty and contains neither `'.'`
nor `'['` — the discriminator characters that `_walk` inserts between
path segments.  This is the side condition under which flattened paths
are collision-free. -/
def goodKey (k : String) : Bool :=
  !(k == "") && k.data.all (fun c => !(c == '.') && !(c == '['))

/-- Pairwise distinctness of the keys of an association list (automatic
for a Python `dict`). -/
def keysNodup : List (String × Node) → Bool
  | [] => true
  | (k, _) :: rest => rest.all (fun kv => !(kv.1 == k)) && keysNodup rest

mutual
/-- Well-formedness of a document for path uniqueness: every mapping has
pairwise-distinct clean keys. -/
def good : Node → Bool
  | .scalar _ => true
  | .other => true
  | .map entries => keysNodup entries && goodEntries entries
  | .seq items => goodList items

/-- `good` for each entry of a mapping. -/
def goodEntries : List (String × Node) → Bool
  | [] => true
  | (k, v) :: rest => goodKey k && good v && goodEntries rest

/-- `good` for each item of a sequence. -/
def goodList : List Node → Bool
  | [] => true
  | v :: rest => good v && goodList rest
end

/-- A path segment as the spec describes it: a field name from a mapping
key or a positional index from a sequence. -/
inductive Seg where
  | field (k : String)
  | idx (i : Nat)

/-- Modelled from the spec's canonical textual rendering: starting from
an accumulated path, field segments join with `.` (no leading dot when
the accumulated path is empty) and index segments render as `[i]` with
no preceding dot. -/
def renderFrom (acc : String) : List Seg → String
  | [] => acc
  | .field k :: rest => renderFrom (if acc = "" then k else acc ++ "." ++ k) rest
  | .idx i :: rest => renderFrom (acc ++ "[" ++ natRepr i ++ "]") rest

mutual
/-- Modelled from the spec: the `(segment-path, scalar)` pairs of all
scalar leaves of a document, in traversal order; non-scalar leaf kinds
contribute nothing. -/
def leaves : Node → List (List Seg × Scalar)
  | .scalar s => [([], s)]
  | .map entries => leavesMap entries
  | .seq items => leavesSeq items 0
  | .other => []

/-- `leaves` over the entries of a mapping. -/
def leavesMap : List (String × Node) → List (List Seg × Scalar)
  | [] => []
  | (k, v) :: rest =>
    (leaves v).map (fun pv => (Seg.field k :: pv.1, pv.2)) ++ leavesMap rest

/-- `leaves` over the items of a sequence, starting at a given index. -/
def leavesSeq : List Node → Nat → List (List Seg × Scalar)
  | [], _ => []
  | v :: rest, i =>
    (leaves v).map (fun pv => (Seg.idx i :: pv.1, pv.2)) ++ leavesSeq rest (i + 1)
end

/-! ## Dictionary lemmas -/

theorem dget_insert_self {α : Type} (d : List (String × α)) (k : String) (v : α) :
    dget (dictInsert d k v) k = some v := by
  induction d with
  | nil => simp [dictInsert, dget]
  | cons p rest ih =>
    obtain ⟨k', v'⟩ := p
    by_cases h : k' = k
    · subst h; simp [dictInsert, dget]
    · simp [dictInsert, dget, h, ih]

theorem dget_insert_ne {α : Type} (d : List (String × α)) (k q : String) (v : α)
    (h : k ≠ q) : dget (dictInsert d k v) q = dget d q := by
  induction d with
  | nil => simp [dictInsert, dget, h]
  | cons p rest ih =>
    obtain ⟨k', v'⟩ := p
    by_cases h' : k' = k
    · subst h'; simp [dictInsert, dget, h]
    · simp [dictInsert, dget, h', ih]

theorem dget_eq_none_of_not_mem {α : Type} (d : List (String × α)) (q : String)
    (h : q ∉ d.map Prod.fst) : dget d q = none := by
  induction d with
  | nil => rfl
  | cons p rest ih =>
    obtain ⟨k', v'⟩ := p
    simp only [List.map_cons, List.mem_cons, not_or] at h
    have hne : k' ≠ q := fun e => h.1 e.symm
    simp [dget, hne, ih h.2]

/-! ## C2: the `deep_merge` contract -/

/-- **C2.** For mappings `a` and `b` (`b` with the distinct keys a Python
dict guarantees), looking up any key `k` in `deep_merge a b` gives: the
recursive merge when `k` is in both and both values are mappings, `b`'s
value for every other key of `b`, and `a`'s value for keys absent from
`b`. -/
theorem deep_merge_dget (b : List (String × Node)) :
    ∀ a : List (String × Node), (b.map Prod.fst).Nodup → ∀ k : String,
    dget (deep_merge a b) k =
      (match dget b k, dget a k with
       | some (Node.map vm), some (Node.map m) =>
         some (Node.map (deep_merge m vm))
       | some vb, _ => some vb
       | none, _ => dget a k) := by
  induction b with
  | nil => intro a _ k; simp [deep_merge, dget]
  | cons p rest ih =>
    obtain ⟨k0, v0⟩ := p
    intro a hnd k
    simp only [List.map_cons, List.nodup_cons] at hnd
    obtain ⟨hk0, hrest⟩ := hnd
    simp only [deep_merge]
    rw [ih _ hrest k]
    by_cases hk : k0 = k
    · subst hk
      rw [dget_eq_none_of_not_mem rest k0 hk0, dget_insert_self]
      cases hda : dget a k0 with
      | none => cases v0 <;> simp [dget, hda, mergeVal, Option.elim]
      | some w => cases w <;> cases v0 <;> simp [dget, hda, mergeVal, Option.elim]
    · rw [dget_insert_ne _ _ _ _ hk]
      simp [dget, hk]

/-- Witness for C2 at the spec's own example: merging `{a: {x: 1}}` with
`{a: 5}` replaces the mapping wholesale, yielding value `5` at key `a`. -/
theorem deep_merge_dget_witness :
    ((([("a", Node.scalar (Scalar.int 5))]).map Prod.fst).Nodup ∧
      dget (deep_merge [("a", Node.map [("x", Node.scalar (Scalar.int 1))])]
        [("a", Node.scalar (Scalar.int 5))]) "a" =
        some (Node.scalar (Scalar.int 5))) := by
  refine ⟨by simp, ?_⟩
  have h := deep_merge_dget [("a", Node.scalar (Scalar.int 5))]
    [("a", Node.map [("x", Node.scalar (Scalar.int 1))])] (by simp) "a"
  simpa [dget] using h

/-! ## C1: the comparator reports exactly the equal-valued intersection -/

/-- **C1.** A pair `(k, v)` is reported by the comparator exactly when it
occurs in the profile flattening and the base flattening holds a
`==`-equal scalar at the same path `k`; in particular paths present only
in the base are never reported (a reported pair always occurs in the
profile flattening). -/
theorem findDuplicates_mem (base_flat prof_flat : List (String × Scalar))
    (k : String) (v : Scalar) :
    (k, v) ∈ findDuplicates base_flat prof_flat ↔
      ((k, v) ∈ prof_flat ∧ ∃ w, dget base_flat k = some w ∧ pyEq w v = true) := by
  unfold findDuplicates
  rw [List.mem_mergeSort, List.mem_filter]
  cases h : dget base_flat k <;> simp [h]

/-! ## C6: findings are sorted by path -/

/-- **C6.** The comparator's output is sorted in ascending lexicographic
order of the canonical path string. -/
theorem findDuplicates_sorted (base_flat prof_flat : List (String × Scalar)) :
    (findDuplicates base_flat prof_flat).Pairwise
      (fun x y : String × Scalar => x.1 ≤ y.1) := by
  unfold findDuplicates
  refine List.Pairwise.imp ?_ (List.sorted_mergeSort ?_ ?_ _)
  · intro a b h
    exact of_decide_eq_true h
  · intro a b c hab hbc
    simp only [decide_eq_true_eq] at hab hbc ⊢
    exact le_trans hab hbc
  · intro a b
    simpa using le_total a.1 b.1

/-! ## C7: load failures are contained -/

theorem foldl_add_count {α : Type} (f : α → Nat) :
    ∀ (l : List α) (n : Nat), l.foldl (fun t p => t + f p) n = n + (l.map f).sum := by
  intro l
  induction l with
  | nil => simp
  | cons x rest ih => intro n; simp [List.foldl_cons, ih, Nat.add_assoc]

/-- **C7.** A failed base or profile load produces exactly one printed
diagnostic and a zero duplicate count, and such a failure does not
propagate: removing a failing profile from the folder's profile loop
leaves the folder's total unchanged (the remaining comparisons still
run and contribute their counts). -/
theorem compare_load_errors :
    (∀ (bp pp e : String) (pl : Except String (List (String × Node))),
      compare_and_report bp pp (Except.error e) pl =
        ([Event.loadBaseError bp e], 0)) ∧
    (∀ (bp pp : String) (base : List (String × Node)) (e : String),
      compare_and_report bp pp (Except.ok base) (Except.error e) =
        ([Event.loadProfileError pp e], 0)) ∧
    (∀ (bp : String) (bl : Except String (List (String × Node)))
      (ps₁ ps₂ : List (String × Except String (List (String × Node))))
      (pp e : String),
      profile_loop bp bl (ps₁ ++ (pp, Except.error e) :: ps₂) =
        profile_loop bp bl (ps₁ ++ ps₂)) := by
  refine ⟨fun bp pp e pl => rfl, fun bp pp base e => rfl, ?_⟩
  intro bp bl ps₁ ps₂ pp e
  unfold profile_loop
  rw [foldl_add_count, foldl_add_count]
  have hzero : (compare_and_report bp pp bl (Except.error e)).2 = 0 := by
    cases bl <;> rfl
  simp [hzero]

/-! ## C9: null documents contribute nothing -/

/-- **C9.** A `null` document is skipped by the merge fold, and a file
all of whose documents are `null` merges to the empty mapping, which
flattens to no entries. -/
theorem load_null_docs :
    (∀ merged : List (String × Node),
      mergeDoc merged (Node.scalar Scalar.null) = merged) ∧
    (∀ docs : List Node, (∀ d ∈ docs, d = Node.scalar Scalar.null) →
      load_yaml_merged docs = [] ∧
        flatten (Node.map (load_yaml_merged docs)) = []) := by
  have hstep : ∀ merged : List (String × Node),
      mergeDoc merged (Node.scalar Scalar.null) = merged := fun _ => rfl
  refine ⟨hstep, ?_⟩
  have haux : ∀ (docs : List Node), (∀ d ∈ docs, d = Node.scalar Scalar.null) →
      ∀ m : List (String × Node), docs.foldl mergeDoc m = m := by
    intro docs
    induction docs with
    | nil => intro _ m; rfl
    | cons d rest ih =>
      intro h m
      have hd : d = Node.scalar Scalar.null := h d (by simp)
      rw [List.foldl_cons, hd, hstep]
      exact ih (fun x hx => h x (by simp [hx])) m
  intro docs h
  have hload : load_yaml_merged docs = [] := haux docs h []
  refine ⟨hload, ?_⟩
  rw [hload]
  simp [flatten, walk, walkMap, pyDict]

/-- Witness for C9 at a two-document all-`null` file. -/
theorem load_null_docs_witness :
    load_yaml_merged [Node.scalar Scalar.null, Node.scalar Scalar.null] = [] ∧
      flatten (Node.map (load_yaml_merged
        [Node.scalar Scalar.null, Node.scalar Scalar.null])) = [] :=
  load_null_docs.2 [Node.scalar Scalar.null, Node.scalar Scalar.null] (by simp)

/-! ## C8: non-mapping roots are wrapped under `_` -/

/-- **C8.** A parsed document whose root is not a mapping — a non-`null`
bare scalar or a top-level sequence — is wrapped as the single-field
mapping `{"_": d}` before merging, so a file holding just a bare scalar
flattens to the single path `_`, not to the empty path. -/
theorem load_wraps_nonmapping_root :
    (∀ (merged : List (String × Node)) (s : Scalar), s ≠ Scalar.null →
      mergeDoc merged (Node.scalar s) = deep_merge merged [("_", Node.scalar s)]) ∧
    (∀ (merged : List (String × Node)) (items : List Node),
      mergeDoc merged (Node.seq items) = deep_merge merged [("_", Node.seq items)]) ∧
    (∀ s : Scalar, s ≠ Scalar.null →
      flatten (Node.map (load_yaml_merged [Node.scalar s])) = [("_", s)]) := by
  refine ⟨?_, fun merged items => rfl, ?_⟩
  · intro merged s hs
    cases s <;> first | rfl | exact absurd rfl hs
  · intro s hs
    cases s <;> first
      | exact absurd rfl hs
      | simp [load_yaml_merged, mergeDoc, deep_merge, dget, dictInsert,
          Option.elim, flatten, walk, walkMap, mapKey, pyDict]

/-- Witness for C8 at the bare scalar `true`. -/
theorem load_wraps_nonmapping_root_witness :
    Scalar.bool true ≠ Scalar.null ∧
      flatten (Node.map (load_yaml_merged [Node.scalar (Scalar.bool true)])) =
        [("_", Scalar.bool true)] :=
  ⟨by decide, load_wraps_nonmapping_root.2.2 (Scalar.bool true) (by decide)⟩

/-! ## C4 (corrected): the root-scalar file does *not* flatten to empty -/

/-- **C4, counterexample.** Loading a file whose sole document is the
bare scalar `true` and flattening the merged result is *not* empty: the
merger wraps the scalar under the synthetic key `_`. -/
theorem root_scalar_load_not_empty :
    flatten (Node.map (load_yaml_merged [Node.scalar (Scalar.bool true)])) ≠ [] := by
  have h : flatten (Node.map (load_yaml_merged [Node.scalar (Scalar.bool true)])) =
      [("_", Scalar.bool true)] := by
    simp [load_yaml_merged, mergeDoc, deep_merge, dget, dictInsert,
      Option.elim, flatten, walk, walkMap, mapKey, pyDict]
  rw [h]
  simp

/-- **C4, amended.** Loading (merging) a file whose sole document is the
bare scalar `true` and then flattening yields the single entry
`("_", true)` (the merger wraps the non-mapping root under `_`); only
when `flatten` is applied directly to the bare scalar does the root
flatten to the empty-path entry, which the final filter removes, giving
an empty result. -/
theorem root_scalar_amended :
    flatten (Node.map (load_yaml_merged [Node.scalar (Scalar.bool true)])) =
        [("_", Scalar.bool true)] ∧
      flatten (Node.scalar (Scalar.bool true)) = [] := by
  constructor
  · simp [load_yaml_merged, mergeDoc, deep_merge, dget, dictInsert,
      Option.elim, flatten, walk, walkMap, mapKey, pyDict]
  · simp [flatten, walk, pyDict, dictInsert]

/-! ## C10: Python cross-kind numeric equality is reported -/

/-- **C10.** Scalar comparison uses Python's native `==`: the integer `1`
in the base and the boolean `true` in the profile (and vice versa)
compare equal and are reported as duplicates, as do the integer `8080`
and the float `8080.0`. -/
theorem cross_kind_equality_reported :
    findDuplicates (flatten (Node.map [("x", Node.scalar (Scalar.int 1))]))
        (flatten (Node.map [("x", Node.scalar (Scalar.bool true))])) =
      [("x", Scalar.bool true)] ∧
    findDuplicates (flatten (Node.map [("x", Node.scalar (Scalar.bool true))]))
        (flatten (Node.map [("x", Node.scalar (Scalar.int 1))])) =
      [("x", Scalar.int 1)] ∧
    findDuplicates (flatten (Node.map [("port", Node.scalar (Scalar.int 8080))]))
        (flatten (Node.map [("port", Node.scalar (Scalar.float 8080))])) =
      [("port", Scalar.float 8080)] := by
  refine ⟨?_, ?_, ?_⟩ <;>
    simp [findDuplicates, flatten, walk, walkMap, mapKey, pyDict, dictInsert,
      dget, pyEq, Scalar.numVal]

/-! ## Structural induction for nested documents -/

/-- Induction over `Node` with member hypotheses for the nested lists. -/
theorem Node.myInduction (motive : Node → Prop)
    (hscalar : ∀ s, motive (Node.scalar s))
    (hother : motive Node.other)
    (hmap : ∀ entries, (∀ kv ∈ entries, motive kv.2) → motive (Node.map entries))
    (hseq : ∀ items, (∀ v ∈ items, motive v) → motive (Node.seq items)) :
    ∀ n, motive n
  | Node.scalar s => hscalar s
  | Node.other => hother
  | Node.map entries =>
    hmap entries (fun kv hkv =>
      Node.myInduction motive hscalar hother hmap hseq kv.2)
  | Node.seq items =>
    hseq items (fun v hv =>
      Node.myInduction motive hscalar hother hmap hseq v)
termination_by n => sizeOf n
decreasing_by
  · have h := List.sizeOf_lt_of_mem hkv
    obtain ⟨k, v2⟩ := kv
    simp_arith at h ⊢
    omega
  · have h := List.sizeOf_lt_of_mem hv
    simp_arith
    omega

/-! ## Decomposition of the walk over mappings and sequences -/

theorem walkMap_mem (entries : List (String × Node)) (pfx : String) (p : String)
    (h : p ∈ (walkMap entries pfx).map Prod.fst) :
    ∃ kv ∈ entries, p ∈ (walk kv.2 (mapKey pfx kv.1)).map Prod.fst := by
  induction entries with
  | nil => simp [walkMap] at h
  | cons q rest ih =>
    obtain ⟨k, v⟩ := q
    simp only [walkMap, List.map_append, List.mem_append] at h
    rcases h with h | h
    · exact ⟨(k, v), by simp, h⟩
    · obtain ⟨kv, hkv, hp⟩ := ih h
      exact ⟨kv, by simp [hkv], hp⟩

theorem walkSeq_mem (items : List Node) (pfx : String) :
    ∀ (i : Nat) (p : String), p ∈ (walkSeq items pfx i).map Prod.fst →
    ∃ j, i ≤ j ∧ ∃ v ∈ items, p ∈ (walk v (seqKey pfx j)).map Prod.fst := by
  induction items with
  | nil => intro i p h; simp [walkSeq] at h
  | cons v rest ih =>
    intro i p h
    simp only [walkSeq, List.map_append, List.mem_append] at h
    rcases h with h | h
    · exact ⟨i, le_refl i, v, by simp, h⟩
    · obtain ⟨j, hj, w, hw, hp⟩ := ih (i + 1) p h
      exact ⟨j, by omega, w, by simp [hw], hp⟩

/-! ## C5: paths are the canonical rendering of the leaf segment paths -/

theorem seqKey_eq (pfx : String) (i : Nat) :
    seqKey pfx i = pfx ++ "[" ++ natRepr i ++ "]" := by
  unfold seqKey
  split
  · rename_i h
    subst h
    apply String.ext
    simp
  · rfl

theorem walkMap_render (pfx : String) (entries : List (String × Node))
    (ih : ∀ kv ∈ entries, ∀ q : String,
      walk kv.2 q = (leaves kv.2).map (fun pv => (renderFrom q pv.1, pv.2))) :
    walkMap entries pfx =
      (leavesMap entries).map (fun pv => (renderFrom pfx pv.1, pv.2)) := by
  induction entries with
  | nil => simp [walkMap, leavesMap]
  | cons q rest ihr =>
    obtain ⟨k, v⟩ := q
    simp only [walkMap, leavesMap, List.map_append, List.map_map]
    congr 1
    · rw [ih (k, v) (by simp) (mapKey pfx k)]
      apply List.map_congr_left
      intro pv _
      simp [renderFrom, mapKey, Function.comp]
    · exact ihr (fun kv hkv q => ih kv (by simp [hkv]) q)

theorem walkSeq_render (pfx : String) (items : List Node)
    (ih : ∀ v ∈ items, ∀ q : String,
      walk v q = (leaves v).map (fun pv => (renderFrom q pv.1, pv.2))) :
    ∀ i : Nat, walkSeq items pfx i =
      (leavesSeq items i).map (fun pv => (renderFrom pfx pv.1, pv.2)) := by
  induction items with
  | nil => intro i; simp [walkSeq, leavesSeq]
  | cons v rest ihr =>
    intro i
    simp only [walkSeq, leavesSeq, List.map_append, List.map_map]
    congr 1
    · rw [ih v (by simp) (seqKey pfx i), seqKey_eq]
      apply List.map_congr_left
      intro pv _
      simp [renderFrom, Function.comp]
    · exact ihr (fun w hw q => ih w (by simp [hw]) q) (i + 1)

theorem walk_render : ∀ (n : Node) (pfx : String),
    walk n pfx = (leaves n).map (fun pv => (renderFrom pfx pv.1, pv.2)) := by
  intro n
  induction n using Node.myInduction with
  | hscalar s => intro pfx; simp [walk, leaves, renderFrom]
  | hother => intro pfx; simp [walk, leaves]
  | hmap entries ih =>
    intro pfx
    simpa [walk, leaves] using walkMap_render pfx entries ih
  | hseq items ih =>
    intro pfx
    simpa [walk, leaves] using walkSeq_render pfx items ih 0

/-- **C5.** `flatten` renders each leaf's path canonically: the emitted
pairs are exactly the document's scalar leaves, with the leaf's segment
path rendered by joining field segments with `.` (no leading dot when
the accumulated path is empty) and index segments as `[i]` with no
preceding dot; in particular the spec's sequence example flattens to
exactly the two indexed paths. -/
theorem flatten_renders_canonically :
    (∀ (n : Node) (pfx : String),
      walk n pfx = (leaves n).map (fun pv => (renderFrom pfx pv.1, pv.2))) ∧
    flatten (Node.map [("routes", Node.seq
      [Node.map [("path", Node.scalar (Scalar.str "/a"))],
       Node.map [("path", Node.scalar (Scalar.str "/b"))]])]) =
      [("routes[0].path", Scalar.str "/a"), ("routes[1].path", Scalar.str "/b")] := by
  refine ⟨walk_render, ?_⟩
  simp [flatten, walk, walkMap, walkSeq, mapKey, seqKey, natRepr, natDigits,
    pyDict, dictInsert]
  decide

/-! ## Decimal digit facts for sequence indices -/

theorem natDigits_ne_nil (n : Nat) : natDigits n ≠ [] := by
  rw [natDigits]
  split <;> simp

theorem digitChar_props : ∀ m : Nat, m < 10 →
    Nat.digitChar m ≠ '.' ∧ Nat.digitChar m ≠ '[' ∧ Nat.digitChar m ≠ ']' := by
  decide

theorem digitChar_inj10 : ∀ m : Nat, m < 10 → ∀ k : Nat, k < 10 →
    Nat.digitChar m = Nat.digitChar k → m = k := by
  decide

theorem natDigits_chars : ∀ (n : Nat), ∀ c ∈ natDigits n,
    c ≠ '.' ∧ c ≠ '[' ∧ c ≠ ']'
  | n => by
    rw [natDigits]
    split
    · rename_i h
      intro c hc
      simp only [List.mem_singleton] at hc
      subst hc
      exact digitChar_props n h
    · rename_i h
      intro c hc
      rw [List.mem_append] at hc
      rcases hc with hc | hc
      · exact natDigits_chars (n / 10) c hc
      · simp only [List.mem_singleton] at hc
        subst hc
        exact digitChar_props (n % 10) (Nat.mod_lt _ (by omega))
termination_by n => n
decreasing_by
  exact Nat.div_lt_self (by omega) (by omega)

theorem natDigits_lt10 {n : Nat} (h : n < 10) :
    natDigits n = [Nat.digitChar n] := by
  rw [natDigits]
  simp [h]

theorem natDigits_ge10 {n : Nat} (h : ¬n < 10) :
    natDigits n = natDigits (n / 10) ++ [Nat.digitChar (n % 10)] := by
  conv_lhs => rw [natDigits]
  simp [h]

theorem natDigits_inj : ∀ (m n : Nat), natDigits m = natDigits n → m = n
  | m, n => by
    intro h
    by_cases hm : m < 10 <;> by_cases hn : n < 10
    · rw [natDigits_lt10 hm, natDigits_lt10 hn] at h
      simp only [List.cons.injEq] at h
      exact digitChar_inj10 m hm n hn h.1
    · rw [natDigits_lt10 hm, natDigits_ge10 hn] at h
      have hl := congrArg List.length h
      rw [List.length_append] at hl
      simp only [List.length_cons, List.length_nil] at hl
      have hnil : natDigits (n / 10) = [] :=
        List.eq_nil_of_length_eq_zero (by omega)
      exact absurd hnil (natDigits_ne_nil _)
    · rw [natDigits_ge10 hm, natDigits_lt10 hn] at h
      have hl := congrArg List.length h
      rw [List.length_append] at hl
      simp only [List.length_cons, List.length_nil] at hl
      have hnil : natDigits (m / 10) = [] :=
        List.eq_nil_of_length_eq_zero (by omega)
      exact absurd hnil (natDigits_ne_nil _)
    · rw [natDigits_ge10 hm, natDigits_ge10 hn] at h
      obtain ⟨h1, h2⟩ := List.append_inj' h (by simp)
      have e1 := natDigits_inj (m / 10) (n / 10) h1
      simp only [List.cons.injEq] at h2
      have e2 := digitChar_inj10 (m % 10) (Nat.mod_lt _ (by omega))
        (n % 10) (Nat.mod_lt _ (by omega)) h2.1
      omega
termination_by m _ => m
decreasing_by
  exact Nat.div_lt_self (by omega) (by omega)

/-! ## Path-extension shape and the two cancellation lemmas -/

/-- The shape of what a walk appends after its prefix: the extension is
empty (the prefix itself is a leaf) or starts with one of the two
discriminator characters. -/
def extShape : List Char → Prop
  | [] => True
  | c :: _ => c = '.' ∨ c = '['

theorem key_prefix_eq {k1 k2 t1 t2 : List Char}
    (g1 : ∀ c ∈ k1, c ≠ '.' ∧ c ≠ '[') (g2 : ∀ c ∈ k2, c ≠ '.' ∧ c ≠ '[')
    (e1 : extShape t1) (e2 : extShape t2)
    (h : k1 ++ t1 = k2 ++ t2) : k1 = k2 := by
  rcases List.append_eq_append_iff.mp h with ⟨m, hm, ht⟩ | ⟨m, hm, ht⟩
  · cases m with
    | nil => simpa using hm.symm
    | cons c m' =>
      have hc : c ∈ k2 := by rw [hm]; simp
      have hgood := g2 c hc
      rw [ht] at e1
      simp only [extShape] at e1
      rcases e1 with e | e
      · exact absurd e hgood.1
      · exact absurd e hgood.2
  · cases m with
    | nil => simpa using hm
    | cons c m' =>
      have hc : c ∈ k1 := by rw [hm]; simp
      have hgood := g1 c hc
      rw [ht] at e2
      simp only [extShape] at e2
      rcases e2 with e | e
      · exact absurd e hgood.1
      · exact absurd e hgood.2

theorem digits_bracket_eq {d1 d2 t1 t2 : List Char}
    (g1 : ∀ c ∈ d1, c ≠ ']') (g2 : ∀ c ∈ d2, c ≠ ']')
    (h : d1 ++ ']' :: t1 = d2 ++ ']' :: t2) : d1 = d2 ∧ t1 = t2 := by
  rcases List.append_eq_append_iff.mp h with ⟨m, hm, ht⟩ | ⟨m, hm, ht⟩
  · cases m with
    | nil =>
      simp only [List.append_nil] at hm
      simp only [List.nil_append, List.cons.injEq] at ht
      exact ⟨hm.symm, ht.2⟩
    | cons c m' =>
      have hc : c ∈ d2 := by rw [hm]; simp
      have he : c = ']' := by
        simp only [List.cons_append, List.cons.injEq] at ht
        exact ht.1.symm
      exact absurd he (g2 c hc)
  · cases m with
    | nil =>
      simp only [List.append_nil] at hm
      simp only [List.nil_append, List.cons.injEq] at ht
      exact ⟨hm, ht.2.symm⟩
    | cons c m' =>
      have hc : c ∈ d1 := by rw [hm]; simp
      have he : c = ']' := by
        simp only [List.cons_append, List.cons.injEq] at ht
        exact ht.1.symm
      exact absurd he (g1 c hc)

/-! ## String-level renderings of the child paths -/

theorem natRepr_data (n : Nat) : (natRepr n).data = natDigits n := rfl

theorem str_ne_empty_iff (s : String) : s ≠ "" ↔ s.data ≠ [] := by
  rw [ne_eq, String.ext_iff]

/-- The separator `mapKey` inserts before a key: nothing at the root,
a dot below it. -/
def dotSep (pfx : String) : List Char := if pfx = "" then [] else ['.']

theorem mapKey_data (pfx k : String) :
    (mapKey pfx k).data = pfx.data ++ (dotSep pfx ++ k.data) := by
  unfold mapKey dotSep
  split
  · rename_i h
    subst h
    simp
  · simp

theorem seqKey_data (pfx : String) (i : Nat) :
    (seqKey pfx i).data = pfx.data ++ ('[' :: (natDigits i ++ [']'])) := by
  rw [seqKey_eq]
  simp [natRepr_data]

/-! ## Well-formedness bridges -/

theorem goodKey_spec {k : String} (h : goodKey k = true) :
    k.data ≠ [] ∧ ∀ c ∈ k.data, c ≠ '.' ∧ c ≠ '[' := by
  unfold goodKey at h
  rw [Bool.and_eq_true] at h
  obtain ⟨h1, h2⟩ := h
  constructor
  · rw [← str_ne_empty_iff]
    simpa using h1
  · intro c hc
    rw [List.all_eq_true] at h2
    simpa using h2 c hc

theorem keysNodup_cons {k : String} {v : Node} {rest : List (String × Node)}
    (h : keysNodup ((k, v) :: rest) = true) :
    (∀ kv ∈ rest, kv.1 ≠ k) ∧ keysNodup rest = true := by
  rw [keysNodup, Bool.and_eq_true] at h
  obtain ⟨h1, h2⟩ := h
  refine ⟨?_, h2⟩
  intro kv hkv
  rw [List.all_eq_true] at h1
  simpa using h1 kv hkv

theorem goodEntries_mem : ∀ {entries : List (String × Node)},
    goodEntries entries = true →
    ∀ kv ∈ entries, goodKey kv.1 = true ∧ good kv.2 = true := by
  intro entries
  induction entries with
  | nil => intro _ kv hkv; simp at hkv
  | cons q rest ih =>
    obtain ⟨k, v⟩ := q
    intro h kv hkv
    simp only [goodEntries, Bool.and_eq_true] at h
    rcases List.mem_cons.mp hkv with e | hm
    · subst e; exact ⟨h.1.1, h.1.2⟩
    · exact ih h.2 kv hm

theorem goodList_mem : ∀ {items : List Node},
    goodList items = true → ∀ v ∈ items, good v = true := by
  intro items
  induction items with
  | nil => intro _ v hv; simp at hv
  | cons w rest ih =>
    intro h v hv
    simp only [goodList, Bool.and_eq_true] at h
    rcases List.mem_cons.mp hv with e | hm
    · subst e; exact h.1
    · exact ih h.2 v hm

theorem good_map {entries : List (String × Node)}
    (h : good (Node.map entries) = true) :
    keysNodup entries = true ∧
      ∀ kv ∈ entries, goodKey kv.1 = true ∧ good kv.2 = true := by
  simp only [good, Bool.and_eq_true] at h
  exact ⟨h.1, goodEntries_mem h.2⟩

theorem good_seq {items : List Node} (h : good (Node.seq items) = true) :
    ∀ v ∈ items, good v = true := by
  simp only [good] at h
  exact goodList_mem h

theorem mapKey_ne_empty {k : String} (h : goodKey k = true) (pfx : String) :
    mapKey pfx k ≠ "" := by
  rw [str_ne_empty_iff, mapKey_data]
  intro he
  rcases List.append_eq_nil.mp he with ⟨_, h2⟩
  rcases List.append_eq_nil.mp h2 with ⟨_, h3⟩
  exact (goodKey_spec h).1 h3

theorem seqKey_ne_empty (pfx : String) (i : Nat) : seqKey pfx i ≠ "" := by
  rw [str_ne_empty_iff, seqKey_data]
  simp

/-! ## The shape of walked paths -/

theorem walk_shape : ∀ (n : Node) (pfx : String), pfx ≠ "" →
    ∀ p ∈ (walk n pfx).map Prod.fst,
      ∃ t, p.data = pfx.data ++ t ∧ extShape t := by
  intro n
  induction n using Node.myInduction with
  | hscalar s =>
    intro pfx _ p hp
    simp only [walk, List.map_cons, List.map_nil, List.mem_singleton] at hp
    subst hp
    exact ⟨[], by simp, trivial⟩
  | hother =>
    intro pfx _ p hp
    simp [walk] at hp
  | hmap entries ih =>
    intro pfx hne p hp
    simp only [walk] at hp
    obtain ⟨kv, hkv, hin⟩ := walkMap_mem entries pfx p hp
    obtain ⟨t', ht', _⟩ := ih kv hkv (mapKey pfx kv.1)
      (by
        rw [str_ne_empty_iff, mapKey_data]
        simp [dotSep, hne]) p hin
    refine ⟨'.' :: (kv.1.data ++ t'), ?_, Or.inl rfl⟩
    rw [ht', mapKey_data]
    simp [dotSep, hne]
  | hseq items ih =>
    intro pfx hne p hp
    simp only [walk] at hp
    obtain ⟨j, _, v, hv, hin⟩ := walkSeq_mem items pfx 0 p hp
    obtain ⟨t', ht', _⟩ := ih v hv (seqKey pfx j) (seqKey_ne_empty pfx j) p hin
    refine ⟨'[' :: (natDigits j ++ ']' :: t'), ?_, Or.inr rfl⟩
    rw [ht', seqKey_data]
    simp

/-! ## C3: uniqueness of walked paths for well-formed documents -/

theorem walkMap_nodup (pfx : String) :
    ∀ entries : List (String × Node),
    keysNodup entries = true →
    (∀ kv ∈ entries, goodKey kv.1 = true) →
    (∀ kv ∈ entries, ∀ q : String, ((walk kv.2 q).map Prod.fst).Nodup) →
    ((walkMap entries pfx).map Prod.fst).Nodup := by
  intro entries
  induction entries with
  | nil => intro _ _ _; simp [walkMap]
  | cons q rest ih =>
    obtain ⟨k, v⟩ := q
    intro hnd hgood hwalk
    obtain ⟨hk_notin, hnd'⟩ := keysNodup_cons hnd
    rw [walkMap, List.map_append]
    apply List.Nodup.append
    · exact hwalk (k, v) (by simp) (mapKey pfx k)
    · exact ih hnd' (fun kv hkv => hgood kv (by simp [hkv]))
        (fun kv hkv => hwalk kv (by simp [hkv]))
    · intro p hp1 hp2
      obtain ⟨kv', hkv', hin'⟩ := walkMap_mem rest pfx p hp2
      have hgk : goodKey k = true := hgood (k, v) (by simp)
      have hgk' : goodKey kv'.1 = true := hgood kv' (by simp [hkv'])
      obtain ⟨t1, ht1, hs1⟩ :=
        walk_shape v (mapKey pfx k) (mapKey_ne_empty hgk pfx) p hp1
      obtain ⟨t2, ht2, hs2⟩ :=
        walk_shape kv'.2 (mapKey pfx kv'.1) (mapKey_ne_empty hgk' pfx) p hin'
      rw [mapKey_data] at ht1 ht2
      simp only [List.append_assoc] at ht1 ht2
      have hc := List.append_cancel_left
        (List.append_cancel_left (ht1.symm.trans ht2))
      have hkeq := key_prefix_eq ((goodKey_spec hgk).2) ((goodKey_spec hgk').2)
        hs1 hs2 hc
      exact hk_notin kv' hkv' (String.ext hkeq.symm)

theorem walkSeq_nodup (pfx : String) :
    ∀ (items : List Node) (i : Nat),
    (∀ v ∈ items, ∀ q : String, ((walk v q).map Prod.fst).Nodup) →
    ((walkSeq items pfx i).map Prod.fst).Nodup := by
  intro items
  induction items with
  | nil => intro i _; simp [walkSeq]
  | cons v rest ih =>
    intro i hwalk
    rw [walkSeq, List.map_append]
    apply List.Nodup.append
    · exact hwalk v (by simp) (seqKey pfx i)
    · exact ih (i + 1) (fun w hw => hwalk w (by simp [hw]))
    · intro p hp1 hp2
      obtain ⟨j, hj, w, hw, hin⟩ := walkSeq_mem rest pfx (i + 1) p hp2
      obtain ⟨t1, ht1, _⟩ :=
        walk_shape v (seqKey pfx i) (seqKey_ne_empty pfx i) p hp1
      obtain ⟨t2, ht2, _⟩ :=
        walk_shape w (seqKey pfx j) (seqKey_ne_empty pfx j) p hin
      rw [seqKey_data] at ht1 ht2
      simp only [List.append_assoc, List.cons_append, List.singleton_append]
        at ht1 ht2
      have hc := List.append_cancel_left (ht1.symm.trans ht2)
      simp only [List.cons.injEq, true_and] at hc
      have hd := (digits_bracket_eq
        (fun c hcm => (natDigits_chars i c hcm).2.2)
        (fun c hcm => (natDigits_chars j c hcm).2.2) hc).1
      have : i = j := natDigits_inj i j hd
      omega

theorem walk_nodup : ∀ n : Node, good n = true →
    ∀ pfx : String, ((walk n pfx).map Prod.fst).Nodup := by
  intro n
  induction n using Node.myInduction with
  | hscalar s => intro _ pfx; simp [walk]
  | hother => intro _ pfx; simp [walk]
  | hmap entries ih =>
    intro hg pfx
    obtain ⟨h1, h2⟩ := good_map hg
    simp only [walk]
    exact walkMap_nodup pfx entries h1 (fun kv hkv => (h2 kv hkv).1)
      (fun kv hkv q => ih kv hkv ((h2 kv hkv).2) q)
  | hseq items ih =>
    intro hg pfx
    simp only [walk]
    exact walkSeq_nodup pfx items 0
      (fun v hv q => ih v hv (good_seq hg v hv) q)

/-- **C3, counterexample.** Paths are *not* unique by construction: for
the document `{"a.b": 1, "a": {"b": 2}}` — whose mapping keys are
pairwise distinct — the walk underlying `flatten` emits the path string
`a.b` twice (once for the dotted key, once for the nested leaf), so the
produced `(path, value)` collection has two entries with the same path. -/
theorem flatten_paths_duplicate_counterexample :
    ¬ (((walk (Node.map [("a.b", Node.scalar (Scalar.int 1)),
        ("a", Node.map [("b", Node.scalar (Scalar.int 2))])]) "").map
          Prod.fst).Nodup) := by
  have h : (walk (Node.map [("a.b", Node.scalar (Scalar.int 1)),
      ("a", Node.map [("b", Node.scalar (Scalar.int 2))])]) "").map Prod.fst =
      ["a.b", "a.b"] := by
    simp [walk, walkMap, mapKey]
  rw [h]
  decide

/-- **C3, amended.** For every document all of whose mapping keys are
pairwise distinct (as a Python dict guarantees), nonempty, and free of
the discriminator characters `'.'` and `'['`, the `(path, value)` pairs
produced while flattening have pairwise-distinct path strings. -/
theorem flatten_paths_nodup (d : Node) (h : good d = true) :
    ((walk d "").map Prod.fst).Nodup :=
  walk_nodup d h ""

/-- Witness for C3 on a document with nested mappings and a sequence. -/
theorem flatten_paths_nodup_witness :
    good (Node.map [("server", Node.map [("port", Node.scalar (Scalar.int 8080))]),
      ("routes", Node.seq [Node.map [("path", Node.scalar (Scalar.str "/a"))],
        Node.map [("path", Node.scalar (Scalar.str "/b"))]])]) = true ∧
    ((walk (Node.map [("server", Node.map [("port", Node.scalar (Scalar.int 8080))]),
      ("routes", Node.seq [Node.map [("path", Node.scalar (Scalar.str "/a"))],
        Node.map [("path", Node.scalar (Scalar.str "/b"))]])]) "").map
          Prod.fst).Nodup := by
  have hg : good (Node.map [("server", Node.map [("port", Node.scalar (Scalar.int 8080))]),
      ("routes", Node.seq [Node.map [("path", Node.scalar (Scalar.str "/a"))],
        Node.map [("path", Node.scalar (Scalar.str "/b"))]])]) = true := by
    simp [good, goodEntries, goodList, goodKey, keysNodup]
  exact ⟨hg, flatten_paths_nodup _ hg⟩
